import Mathlib

/-!
Verification of the MACD dashboard core (`macd_dashboard.py`).

The Python source computes, for one instrument, the MACD oscillator and its
signal line (`get_macd`), a cumulative VWAP (`get_vwap`), classifies the
crossover between oscillator and signal (`check_cross`), and renders one
refresh cycle (`render_dashboard`) which optionally emits an e-mail alert.

This file gives a shallow embedding of those functions over exact rationals
(Python floats become `ℚ`; pandas `NaN` and non-numeric cell contents become
explicit constructors) and proves the specified properties about them.
-/

/-- A cell of a pandas series as `check_cross` may see it: a numeric value,
a `NaN` (dropped by `dropna`), or a non-numeric object on which `float(...)`
raises. -/
inductive PyVal
  | num (q : ℚ)
  | nan
  | bad
  deriving DecidableEq, Repr

/-- `pd.isna` on a cell: true exactly on `NaN`. -/
def PyVal.isNa : PyVal → Bool
  | .nan => true
  | _ => false

/-- `float(...)` applied to a cell: succeeds on numbers, raises (here: `none`)
on non-numeric objects. -/
def PyVal.toFloat : PyVal → Option ℚ
  | .num q => some q
  | _ => none

/-- `Series.dropna()`: remove the `NaN` cells, keep everything else. -/
def dropna (l : List PyVal) : List PyVal :=
  l.filter (fun v => !v.isNa)

/-- The comparison core of `check_cross`, acting on the reversed cleaned
series (so the head is `iloc[-1]` and the second element `iloc[-2]`). -/
def crossCore : List PyVal → List PyVal → String
  | mNow :: mPrev :: _, sNow :: sPrev :: _ =>
    match mPrev.toFloat, mNow.toFloat, sPrev.toFloat, sNow.toFloat with
    | some macd_prev, some macd_now, some sig_prev, some sig_now =>
      if macd_prev < sig_prev ∧ macd_now > sig_now then "📈 BUY SIGNAL"
      else if macd_prev > sig_prev ∧ macd_now < sig_now then "📉 SELL SIGNAL"
      else "No crossover"
    | _, _, _, _ => "No signal"
  | _, _ => "No signal"

/-- `check_cross(macd, signal)` from the source: drop NaNs from both series,
return `"No signal"` when either cleaned series has fewer than 2 points or a
`float(...)` conversion raises, otherwise compare the last two points of
each. -/
def check_cross (macd signal : List PyVal) : String :=
  let m := dropna macd
  let s := dropna signal
  if m.length < 2 ∨ s.length < 2 then "No signal"
  else crossCore m.reverse s.reverse

/-- The spec's `CrossoverResult` enumeration. -/
inductive CrossoverResult
  | BuySignal
  | SellSignal
  | NoCrossover
  | Insufficient
  deriving DecidableEq, Repr

/-- Interpretation of the strings returned by `check_cross` as the spec's
`CrossoverResult` values (`"No signal"` covers the insufficient-data and
conversion-failure cases). -/
def toResult (s : String) : CrossoverResult :=
  if s = "📈 BUY SIGNAL" then .BuySignal
  else if s = "📉 SELL SIGNAL" then .SellSignal
  else if s = "No crossover" then .NoCrossover
  else .Insufficient

/-- The spec's `detect` operation is `check_cross` read through the
`CrossoverResult` enumeration. -/
def detect (macd signal : List PyVal) : CrossoverResult :=
  toResult (check_cross macd signal)

/-- An oscillator input series: `k` leading undefined (warm-up) cells
followed by numeric values. -/
def oscList (k : ℕ) (xs : List ℚ) : List PyVal :=
  List.replicate k .nan ++ xs.map .num

example : check_cross (oscList 1 [-1, 1]) (oscList 0 [0, 0]) = "📈 BUY SIGNAL" := by decide
example : check_cross (oscList 0 [1, -1]) (oscList 0 [0, 0]) = "📉 SELL SIGNAL" := by decide
example : check_cross (oscList 0 [1, 2]) (oscList 0 [1, 2]) = "No crossover" := by decide
example : check_cross (oscList 5 [1]) (oscList 0 [0, 0]) = "No signal" := by decide

lemma crossCore_short : ∀ t u : List PyVal, t.length < 2 ∨ u.length < 2 →
    crossCore t u = "No signal" := by
  intro t u h
  match t, u with
  | [], _ => rfl
  | [_], _ => rfl
  | _ :: _ :: _, [] => rfl
  | _ :: _ :: _, [_] => rfl
  | _ :: _ :: _, _ :: _ :: _ => simp [List.length] at h; omega

lemma check_cross_eq_core (macd signal : List PyVal) :
    check_cross macd signal = crossCore (dropna macd).reverse (dropna signal).reverse := by
  simp only [check_cross]
  split
  · rename_i h
    exact (crossCore_short _ _ (by simpa using h)).symm
  · rfl

lemma crossCore_cases (t u : List PyVal) :
    crossCore t u = "No signal" ∨ crossCore t u = "📈 BUY SIGNAL" ∨
    crossCore t u = "📉 SELL SIGNAL" ∨ crossCore t u = "No crossover" := by
  unfold crossCore
  split
  · split
    · split_ifs
      · exact Or.inr (Or.inl rfl)
      · exact Or.inr (Or.inr (Or.inl rfl))
      · exact Or.inr (Or.inr (Or.inr rfl))
    · exact Or.inl rfl
  · exact Or.inl rfl

/-- C10: check_cross is total and its result set is closed: on every pair of
input series, including ones with NaN or non-numeric entries, it returns one
of exactly four strings. -/
theorem claim_C10 (macd signal : List PyVal) :
    check_cross macd signal = "No signal" ∨
    check_cross macd signal = "📈 BUY SIGNAL" ∨
    check_cross macd signal = "📉 SELL SIGNAL" ∨
    check_cross macd signal = "No crossover" := by
  rw [check_cross_eq_core]
  exact crossCore_cases _ _

/-- The input truncated to just its last two defined (non-NaN) points. -/
def lastTwoDefined (l : List PyVal) : List PyVal :=
  ((dropna l).reverse.take 2).reverse

lemma dropna_lastTwoDefined (l : List PyVal) :
    dropna (lastTwoDefined l) = lastTwoDefined l := by
  apply List.filter_eq_self.mpr
  intro a ha
  have hmem : a ∈ dropna l := by
    rw [lastTwoDefined, List.mem_reverse] at ha
    exact List.mem_reverse.mp (List.mem_of_mem_take ha)
  simp only [dropna] at hmem
  exact (List.mem_filter.mp hmem).2

lemma crossCore_take2 : ∀ t u : List PyVal,
    crossCore (t.take 2) (u.take 2) = crossCore t u := by
  intro t u
  match t, u with
  | [], _ => rw [crossCore_short, crossCore_short] <;> simp
  | [_], _ => rw [crossCore_short, crossCore_short] <;> simp
  | _ :: _ :: _, [] => rw [crossCore_short, crossCore_short] <;> simp
  | _ :: _ :: _, [_] => rw [crossCore_short, crossCore_short] <;> simp [List.length_take]
  | a :: a' :: _, b :: b' :: _ => rfl

lemma dropna_oscList (k : ℕ) (xs : List ℚ) :
    dropna (oscList k xs) = xs.map .num := by
  have h1 : List.filter (fun v => !PyVal.isNa v) (List.replicate k PyVal.nan) = [] := by
    induction k with
    | zero => rfl
    | succ n ih => simp [List.replicate_succ, ih, PyVal.isNa]
  have h2 : List.filter (fun v => !PyVal.isNa v) (xs.map PyVal.num) = xs.map PyVal.num := by
    apply List.filter_eq_self.mpr
    intro a ha
    rcases List.mem_map.mp ha with ⟨q, _, rfl⟩
    rfl
  simp [dropna, oscList, List.filter_append, h1, h2]

/-- C1: on an oscillator input (each series being warm-up NaNs followed by
numeric values), detect returns Insufficient when either cleaned series has
fewer than 2 points; otherwise it compares the last two points of each with
strict inequalities, any equality yielding NoCrossover. -/
theorem claim_C1 (km ks : ℕ) (ms ss : List ℚ) :
    ((ms.length < 2 ∨ ss.length < 2) →
      detect (oscList km ms) (oscList ks ss) = .Insufficient) ∧
    (∀ mp mn sp sn : ℚ, ∀ mr sr : List ℚ,
      ms.reverse = mn :: mp :: mr → ss.reverse = sn :: sp :: sr →
      (detect (oscList km ms) (oscList ks ss) =
        if mp < sp ∧ mn > sn then .BuySignal
        else if mp > sp ∧ mn < sn then .SellSignal
        else .NoCrossover) ∧
      ((mp = sp ∨ mn = sn) →
        detect (oscList km ms) (oscList ks ss) = .NoCrossover)) := by
  have key : detect (oscList km ms) (oscList ks ss) =
      toResult (crossCore (ms.map PyVal.num).reverse (ss.map PyVal.num).reverse) := by
    rw [detect, check_cross_eq_core, dropna_oscList, dropna_oscList]
  constructor
  · intro h
    rw [key, crossCore_short _ _ (by simpa using h)]
    decide
  · intro mp mn sp sn mr sr hm hs
    have hm' : (ms.map PyVal.num).reverse =
        PyVal.num mn :: PyVal.num mp :: mr.map PyVal.num := by
      rw [← List.map_reverse, hm]; rfl
    have hs' : (ss.map PyVal.num).reverse =
        PyVal.num sn :: PyVal.num sp :: sr.map PyVal.num := by
      rw [← List.map_reverse, hs]; rfl
    rw [key, hm', hs']
    simp only [crossCore, PyVal.toFloat]
    constructor
    · split_ifs <;> decide
    · intro heq
      split_ifs with h1 h2
      · exfalso
        rcases heq with h | h
        · exact absurd h1.1 (by simp [h])
        · exact absurd h1.2 (by simp [h])
      · exfalso
        rcases heq with h | h
        · exact absurd h2.1 (by simp [h])
        · exact absurd h2.2 (by simp [h])
      · decide

theorem claim_C1_witness :
    detect (oscList 1 [-1, 1]) (oscList 0 [0, 0]) = CrossoverResult.BuySignal ∧
    detect (oscList 0 [3]) (oscList 0 [0, 0]) = CrossoverResult.Insufficient := by
  constructor
  · have h := ((claim_C1 1 0 [-1, 1] [0, 0]).2 (-1) 1 0 0 [] []
      (by decide) (by decide)).1
    rw [h]
    decide
  · exact (claim_C1 0 0 [3] [0, 0]).1 (Or.inl (by decide))

/-- C6: detect depends only on the last two defined points of each series:
truncating both inputs to just those points leaves the result unchanged. -/
theorem claim_C6 (macd signal : List PyVal) :
    detect macd signal = detect (lastTwoDefined macd) (lastTwoDefined signal) := by
  unfold detect
  congr 1
  rw [check_cross_eq_core, check_cross_eq_core, dropna_lastTwoDefined,
    dropna_lastTwoDefined, lastTwoDefined, lastTwoDefined,
    List.reverse_reverse, List.reverse_reverse]
  exact (crossCore_take2 _ _).symm

/-! ## The indicator engine: `get_macd` -/

/-- The pandas smoothing factor for `ewm(span=s, adjust=False)`:
`α = 2/(span+1)`. -/
def alpha (span : ℕ) : ℚ := 2 / (span + 1)

/-- The tail of `Series.ewm(span, adjust=False).mean()` after the seed:
each output is `α·x + (1-α)·prev`. -/
def ewmFrom (a : ℚ) : ℚ → List ℚ → List ℚ
  | _, [] => []
  | prev, x :: xs =>
    (a * x + (1 - a) * prev) :: ewmFrom a (a * x + (1 - a) * prev) xs

/-- `Series.ewm(span=s, adjust=False).mean()`: seeded by the first value,
then exponentially smoothed. -/
def ewm (span : ℕ) : List ℚ → List ℚ
  | [] => []
  | x :: xs => x :: ewmFrom (alpha span) x xs

/-- `get_macd(data)` from the source: MACD line = 12-span EWM minus 26-span
EWM of the closes, signal line = 9-span EWM of the MACD line. -/
def get_macd (close : List ℚ) : List ℚ × List ℚ :=
  let exp1 := ewm 12 close
  let exp2 := ewm 26 close
  let macd := List.zipWith (fun a b => a - b) exp1 exp2
  let signal := ewm 9 macd
  (macd, signal)

/-- The spec's recursive exponential moving average:
`E_0 = f 0`, `E_{n+1} = α·f (n+1) + (1-α)·E_n`. -/
def emaSpec (a : ℚ) (f : ℕ → ℚ) : ℕ → ℚ
  | 0 => f 0
  | n + 1 => a * f (n + 1) + (1 - a) * emaSpec a f n

/-- Index-level form of `ewmFrom`: the EMA recursion continued from an
arbitrary previous state `p`. -/
def emaFrom (a p : ℚ) (f : ℕ → ℚ) : ℕ → ℚ
  | 0 => a * f 0 + (1 - a) * p
  | n + 1 => a * f (n + 1) + (1 - a) * emaFrom a p f n

lemma ewmFrom_length (a : ℚ) : ∀ (p : ℚ) (xs : List ℚ),
    (ewmFrom a p xs).length = xs.length := by
  intro p xs
  induction xs generalizing p with
  | nil => rfl
  | cons x t ih => simp [ewmFrom, ih]

lemma ewm_length (s : ℕ) (xs : List ℚ) : (ewm s xs).length = xs.length := by
  cases xs with
  | nil => rfl
  | cons x t => simp [ewm, ewmFrom_length]

lemma emaFrom_shift (a p : ℚ) (f : ℕ → ℚ) : ∀ i,
    emaFrom a p f (i + 1) = emaFrom a (a * f 0 + (1 - a) * p) (fun j => f (j + 1)) i := by
  intro i
  induction i with
  | zero => rfl
  | succ n ih => simp only [emaFrom] at ih ⊢; rw [ih]

lemma emaSpec_shift (a : ℚ) (f : ℕ → ℚ) : ∀ i,
    emaSpec a f (i + 1) = emaFrom a (f 0) (fun j => f (j + 1)) i := by
  intro i
  induction i with
  | zero => rfl
  | succ n ih => simp only [emaSpec, emaFrom] at ih ⊢; rw [ih]

lemma ewmFrom_getD (a : ℚ) : ∀ (xs : List ℚ) (p : ℚ) (i : ℕ), i < xs.length →
    (ewmFrom a p xs).getD i 0 = emaFrom a p (fun j => xs.getD j 0) i := by
  intro xs
  induction xs with
  | nil => intro p i h; simp at h
  | cons x t ih =>
    intro p i h
    cases i with
    | zero => rfl
    | succ n =>
      have hn : n < t.length := by simpa using h
      simp only [ewmFrom, List.getD_cons_succ]
      rw [emaFrom_shift]
      simp only [List.getD_cons_zero, List.getD_cons_succ]
      exact ih (a * x + (1 - a) * p) n hn

lemma ewm_getD (s : ℕ) (xs : List ℚ) (i : ℕ) (h : i < xs.length) :
    (ewm s xs).getD i 0 = emaSpec (alpha s) (fun j => xs.getD j 0) i := by
  cases xs with
  | nil => simp at h
  | cons x t =>
    cases i with
    | zero => rfl
    | succ n =>
      have hn : n < t.length := by simpa using h
      simp only [ewm, List.getD_cons_succ]
      rw [emaSpec_shift]
      simp only [List.getD_cons_zero, List.getD_cons_succ]
      exact ewmFrom_getD _ t x n hn

lemma get_macd_length (close : List ℚ) :
    (get_macd close).1.length = close.length ∧
    (get_macd close).2.length = close.length := by
  constructor
  · simp [get_macd, List.length_zipWith, ewm_length]
  · simp [get_macd, ewm_length, List.length_zipWith]

lemma get_macd_fst_getD (close : List ℚ) (i : ℕ) (h : i < close.length) :
    (get_macd close).1.getD i 0 = (ewm 12 close).getD i 0 - (ewm 26 close).getD i 0 := by
  have h1 : i < (List.zipWith (fun a b => a - b) (ewm 12 close) (ewm 26 close)).length := by
    simp [List.length_zipWith, ewm_length]; omega
  have h12 : i < (ewm 12 close).length := by rw [ewm_length]; exact h
  have h26 : i < (ewm 26 close).length := by rw [ewm_length]; exact h
  simp only [get_macd]
  rw [List.getD_eq_getElem _ _ h1, List.getD_eq_getElem _ _ h12,
    List.getD_eq_getElem _ _ h26, List.getElem_zipWith]

/-- C2: on any series with at least one bar, `get_macd` returns sequences of
the same length as the input whose MACD line is pointwise `ema(12) - ema(26)`
of the closes (EMA per the spec's seeded recursion) and whose signal line is
`ema(9)` of the MACD line itself; every index carries a defined value. -/
theorem claim_C2 (close : List ℚ) (_hlen : 1 ≤ close.length) :
    (get_macd close).1.length = close.length ∧
    (get_macd close).2.length = close.length ∧
    (∀ i, i < close.length →
      (get_macd close).1.getD i 0 =
        emaSpec (alpha 12) (fun j => close.getD j 0) i -
          emaSpec (alpha 26) (fun j => close.getD j 0) i) ∧
    (∀ i, i < close.length →
      (get_macd close).2.getD i 0 =
        emaSpec (alpha 9) (fun j => (get_macd close).1.getD j 0) i) := by
  refine ⟨(get_macd_length close).1, (get_macd_length close).2, ?_, ?_⟩
  · intro i hi
    rw [get_macd_fst_getD close i hi, ewm_getD 12 close i hi, ewm_getD 26 close i hi]
  · intro i hi
    have hm : i < (get_macd close).1.length := by
      rw [(get_macd_length close).1]; exact hi
    have : (get_macd close).2 = ewm 9 (get_macd close).1 := rfl
    rw [this, ewm_getD 9 (get_macd close).1 i hm]

theorem claim_C2_witness :
    1 ≤ ([2, 4] : List ℚ).length ∧
    (get_macd [2, 4]).1.getD 1 0 =
      emaSpec (alpha 12) (fun j => ([2, 4] : List ℚ).getD j 0) 1 -
        emaSpec (alpha 26) (fun j => ([2, 4] : List ℚ).getD j 0) 1 :=
  ⟨by decide, (claim_C2 [2, 4] (by decide)).2.2.1 1 (by decide)⟩

lemma ewmFrom_replicate (a c : ℚ) : ∀ n,
    ewmFrom a c (List.replicate n c) = List.replicate n c := by
  intro n
  induction n with
  | zero => rfl
  | succ m ih =>
    have hc : a * c + (1 - a) * c = c := by ring
    simp [List.replicate_succ, ewmFrom, hc, ih]

lemma ewm_replicate (s : ℕ) (n : ℕ) (c : ℚ) :
    ewm s (List.replicate n c) = List.replicate n c := by
  cases n with
  | zero => rfl
  | succ m => simp [List.replicate_succ, ewm, ewmFrom_replicate]

lemma zipWith_sub_replicate (c d : ℚ) : ∀ n,
    List.zipWith (fun a b => a - b) (List.replicate n c) (List.replicate n d) =
      List.replicate n (c - d) := by
  intro n
  induction n with
  | zero => rfl
  | succ m ih => simp [List.replicate_succ, ih]

/-- C7: on a constant close-price series of any length, every MACD value and
every signal value produced by `get_macd` is exactly 0. -/
theorem claim_C7 (n : ℕ) (c : ℚ) :
    get_macd (List.replicate n c) = (List.replicate n 0, List.replicate n 0) := by
  simp only [get_macd, ewm_replicate, zipWith_sub_replicate, sub_self]

lemma emaSpec_le_self (a : ℚ) (ha : a ≤ 1) (f : ℕ → ℚ) :
    ∀ n, (∀ k, k < n → f k < f (k + 1)) → emaSpec a f n ≤ f n := by
  intro n
  induction n with
  | zero => intro _; exact le_refl _
  | succ m ih =>
    intro hmono
    have h1 : emaSpec a f m ≤ f m := ih (fun k hk => hmono k (Nat.lt_succ_of_lt hk))
    have h2 : f m < f (m + 1) := hmono m (Nat.lt_succ_self m)
    have h3 : emaSpec a f m ≤ f (m + 1) := le_of_lt (lt_of_le_of_lt h1 h2)
    have h4 : (1 - a) * emaSpec a f m ≤ (1 - a) * f (m + 1) :=
      mul_le_mul_of_nonneg_left h3 (sub_nonneg.mpr ha)
    simp only [emaSpec]
    linarith

lemma emaSpec_le_emaSpec (a b : ℚ) (hba : b ≤ a) (ha : a ≤ 1) (hb : b ≤ 1) (f : ℕ → ℚ) :
    ∀ n, (∀ k, k < n → f k < f (k + 1)) → emaSpec b f n ≤ emaSpec a f n := by
  intro n
  induction n with
  | zero => intro _; exact le_refl _
  | succ m ih =>
    intro hmono
    have hmono' : ∀ k, k < m → f k < f (k + 1) :=
      fun k hk => hmono k (Nat.lt_succ_of_lt hk)
    have hE : emaSpec b f m ≤ emaSpec a f m := ih hmono'
    have hEb : emaSpec b f m ≤ f m := emaSpec_le_self b hb f m hmono'
    have hf : f m < f (m + 1) := hmono m (Nat.lt_succ_self m)
    have t1 : 0 ≤ (1 - a) * (emaSpec a f m - emaSpec b f m) :=
      mul_nonneg (sub_nonneg.mpr ha) (sub_nonneg.mpr hE)
    have t2 : 0 ≤ (a - b) * (f (m + 1) - emaSpec b f m) :=
      mul_nonneg (sub_nonneg.mpr hba)
        (sub_nonneg.mpr (le_of_lt (lt_of_le_of_lt hEb hf)))
    simp only [emaSpec]
    nlinarith [t1, t2]

lemma emaSpec_lt_emaSpec (a b : ℚ) (hba : b < a) (ha : a ≤ 1) (f : ℕ → ℚ) (m : ℕ)
    (hmono : ∀ k, k < m + 1 → f k < f (k + 1)) :
    emaSpec b f (m + 1) < emaSpec a f (m + 1) := by
  have hb : b ≤ 1 := le_of_lt (lt_of_lt_of_le hba ha)
  have hmono' : ∀ k, k < m → f k < f (k + 1) :=
    fun k hk => hmono k (Nat.lt_succ_of_lt hk)
  have hE : emaSpec b f m ≤ emaSpec a f m :=
    emaSpec_le_emaSpec a b (le_of_lt hba) ha hb f m hmono'
  have hEb : emaSpec b f m ≤ f m := emaSpec_le_self b hb f m hmono'
  have hf : f m < f (m + 1) := hmono m (Nat.lt_succ_self m)
  have t1 : 0 ≤ (1 - a) * (emaSpec a f m - emaSpec b f m) :=
    mul_nonneg (sub_nonneg.mpr ha) (sub_nonneg.mpr hE)
  have t2 : 0 < (a - b) * (f (m + 1) - emaSpec b f m) :=
    mul_pos (sub_pos.mpr hba) (sub_pos.mpr (lt_of_le_of_lt hEb hf))
  simp only [emaSpec]
  nlinarith [t1, t2]

/-- C8: on a strictly increasing close-price series, every MACD value from
index 1 onward is strictly positive (the 12-span EMA strictly exceeds the
26-span EMA there). -/
theorem claim_C8 (close : List ℚ) (hmono : close.Chain' (· < ·))
    (i : ℕ) (h1 : 1 ≤ i) (hi : i < close.length) :
    0 < (get_macd close).1.getD i 0 := by
  have hf : ∀ k, k < i → close.getD k 0 < close.getD (k + 1) 0 := by
    intro k hk
    have hk1 : k + 1 < close.length := by omega
    have hk0 : k < close.length := by omega
    have hadj := List.chain'_iff_get.mp hmono k (by omega)
    rw [List.getD_eq_getElem _ _ hk0, List.getD_eq_getElem _ _ hk1]
    simpa using hadj
  obtain ⟨m, rfl⟩ : ∃ m, i = m + 1 := ⟨i - 1, by omega⟩
  rw [get_macd_fst_getD close _ hi, ewm_getD 12 close _ hi, ewm_getD 26 close _ hi]
  have hlt : emaSpec (alpha 26) (fun j => close.getD j 0) (m + 1) <
      emaSpec (alpha 12) (fun j => close.getD j 0) (m + 1) := by
    apply emaSpec_lt_emaSpec (alpha 12) (alpha 26) _ _ _ m hf
    · norm_num [alpha]
    · norm_num [alpha]
  linarith

theorem claim_C8_witness :
    ([0, 1, 2] : List ℚ).Chain' (· < ·) ∧ (1 : ℕ) ≤ 1 ∧ 1 < ([0, 1, 2] : List ℚ).length ∧
    0 < (get_macd [0, 1, 2]).1.getD 1 0 :=
  ⟨by norm_num [List.chain'_cons], le_refl 1, by decide,
    claim_C8 [0, 1, 2] (by norm_num [List.chain'_cons]) 1 (le_refl 1) (by decide)⟩

/-! ## The indicator engine: `get_vwap` -/

/-- One OHLCV bar (the fields `get_vwap` reads, plus the close used by
`get_macd` and the cycle report). -/
structure Bar where
  high : ℚ
  low : ℚ
  close : ℚ
  volume : ℚ
  deriving DecidableEq, Repr

/-- A float as produced by elementwise pandas division: a finite value, NaN,
or a signed infinity. -/
inductive FloatVal
  | val (q : ℚ)
  | nan
  | inf
  | ninf
  deriving DecidableEq, Repr

/-- IEEE-style division as pandas performs it elementwise: a zero denominator
yields NaN (for `0/0`) or a signed infinity, never an exception. -/
def pyDiv (n d : ℚ) : FloatVal :=
  if d = 0 then (if n = 0 then .nan else if 0 < n then .inf else .ninf)
  else .val (n / d)

/-- The running-total tail of `Series.cumsum()`. -/
def cumsumFrom (acc : ℚ) : List ℚ → List ℚ
  | [] => []
  | x :: xs => (acc + x) :: cumsumFrom (acc + x) xs

/-- `Series.cumsum()`. -/
def cumsum (l : List ℚ) : List ℚ := cumsumFrom 0 l

/-- `get_vwap(data)` from the source: the elementwise ratio of the cumulative
volume-weighted typical price `(high+low+close)/3` to the cumulative
volume. -/
def get_vwap (data : List Bar) : List FloatVal :=
  let cum_vol_price := cumsum (data.map (fun b => b.volume * ((b.high + b.low + b.close) / 3)))
  let cum_vol := cumsum (data.map (fun b => b.volume))
  List.zipWith pyDiv cum_vol_price cum_vol

lemma cumsumFrom_length (acc : ℚ) : ∀ l : List ℚ, (cumsumFrom acc l).length = l.length := by
  intro l
  induction l generalizing acc with
  | nil => rfl
  | cons x t ih => simp [cumsumFrom, ih]

lemma cumsum_length (l : List ℚ) : (cumsum l).length = l.length :=
  cumsumFrom_length 0 l

lemma get_vwap_length (data : List Bar) : (get_vwap data).length = data.length := by
  simp [get_vwap, List.length_zipWith, cumsum_length]

lemma cumsumFrom_getD : ∀ (l : List ℚ) (acc : ℚ) (i : ℕ), i < l.length →
    (cumsumFrom acc l).getD i 0 = acc + (l.take (i + 1)).sum := by
  intro l
  induction l with
  | nil => intro acc i h; simp at h
  | cons x t ih =>
    intro acc i h
    cases i with
    | zero => simp [cumsumFrom]
    | succ n =>
      have hn : n < t.length := by simpa using h
      simp only [cumsumFrom, List.getD_cons_succ, List.take_succ_cons, List.sum_cons]
      rw [ih (acc + x) n hn]
      ring

lemma cumsum_getD (l : List ℚ) (i : ℕ) (h : i < l.length) :
    (cumsum l).getD i 0 = (l.take (i + 1)).sum := by
  rw [cumsum, cumsumFrom_getD l 0 i h, zero_add]

lemma getD_zipWith_pyDiv (l1 l2 : List ℚ) (i : ℕ) (h1 : i < l1.length) (h2 : i < l2.length) :
    (List.zipWith pyDiv l1 l2).getD i (.val 0) = pyDiv (l1.getD i 0) (l2.getD i 0) := by
  have hz : i < (List.zipWith pyDiv l1 l2).length := by
    rw [List.length_zipWith]; omega
  rw [List.getD_eq_getElem _ _ hz, List.getD_eq_getElem _ _ h1, List.getD_eq_getElem _ _ h2]
  exact List.getElem_zipWith

lemma get_vwap_getD (data : List Bar) (i : ℕ) (h : i < data.length) :
    (get_vwap data).getD i (.val 0) =
      pyDiv (((data.take (i + 1)).map (fun b => b.volume * ((b.high + b.low + b.close) / 3))).sum)
        (((data.take (i + 1)).map (fun b => b.volume)).sum) := by
  have hp : i < (cumsum (data.map (fun b => b.volume * ((b.high + b.low + b.close) / 3)))).length := by
    rw [cumsum_length, List.length_map]; exact h
  have hv : i < (cumsum (data.map (fun b => b.volume))).length := by
    rw [cumsum_length, List.length_map]; exact h
  rw [show get_vwap data = List.zipWith pyDiv
      (cumsum (data.map (fun b => b.volume * ((b.high + b.low + b.close) / 3))))
      (cumsum (data.map (fun b => b.volume))) from rfl,
    getD_zipWith_pyDiv _ _ i hp hv,
    cumsum_getD _ i (by simpa using h), cumsum_getD _ i (by simpa using h),
    ← List.map_take, ← List.map_take]

lemma all_zero_of_sum_zero : ∀ l : List ℚ, (∀ x ∈ l, 0 ≤ x) → l.sum = 0 →
    ∀ x ∈ l, x = 0 := by
  intro l
  induction l with
  | nil => intro _ _ x hx; simp at hx
  | cons y t ih =>
    intro hnn hsum x hx
    have hy : 0 ≤ y := hnn y (List.mem_cons_self y t)
    have ht : 0 ≤ t.sum := List.sum_nonneg fun z hz => hnn z (List.mem_cons_of_mem _ hz)
    rw [List.sum_cons] at hsum
    rcases List.mem_cons.mp hx with rfl | hx'
    · linarith
    · exact ih (fun z hz => hnn z (List.mem_cons_of_mem _ hz)) (by linarith) x hx'

lemma get_vwap_nan (data : List Bar) (hnn : ∀ b ∈ data, 0 ≤ b.volume) (i : ℕ)
    (hi : i < data.length)
    (hz : (cumsum (data.map (fun b => b.volume))).getD i 0 = 0) :
    (get_vwap data).getD i (.val 0) = .nan := by
  rw [cumsum_getD _ i (by simpa using hi), ← List.map_take] at hz
  have hvol : ∀ b ∈ data.take (i + 1), b.volume = 0 := by
    intro b hb
    refine all_zero_of_sum_zero _ ?_ hz b.volume (List.mem_map_of_mem _ hb)
    intro x hx
    rcases List.mem_map.mp hx with ⟨b', hb', rfl⟩
    exact hnn b' (List.mem_of_mem_take hb')
  have hnum : ((data.take (i + 1)).map
      (fun b => b.volume * ((b.high + b.low + b.close) / 3))).sum = 0 := by
    apply List.sum_eq_zero
    intro x hx
    rcases List.mem_map.mp hx with ⟨b, hb, rfl⟩
    rw [hvol b hb]; ring
  rw [get_vwap_getD data i hi, hnum, hz]
  simp [pyDiv]

/-- C3 (amended): for series whose volumes are nonnegative, any index with
zero cumulative volume carries the explicit undefined value NaN (not 0, not
an infinity); an all-zero volume column yields an entirely-NaN VwapSeries.
Without the nonnegativity premise the claim fails (see the
counterexample). -/
theorem claim_C3_amended :
    (∀ data : List Bar, (∀ b ∈ data, 0 ≤ b.volume) →
      ∀ i, i < data.length →
        (cumsum (data.map (fun b => b.volume))).getD i 0 = 0 →
        (get_vwap data).getD i (.val 0) = .nan) ∧
    (∀ data : List Bar, (∀ b ∈ data, b.volume = 0) →
      get_vwap data = List.replicate data.length .nan) := by
  constructor
  · exact get_vwap_nan
  · intro data hzero
    apply List.ext_getElem
    · rw [get_vwap_length, List.length_replicate]
    · intro i h1 h2
      have hi : i < data.length := by rwa [get_vwap_length] at h1
      have hcum : (cumsum (data.map (fun b => b.volume))).getD i 0 = 0 := by
        rw [cumsum_getD _ i (by simpa using hi)]
        apply List.sum_eq_zero
        intro x hx
        rcases List.mem_map.mp (List.mem_of_mem_take hx) with ⟨b, hb, rfl⟩
        exact hzero b hb
      have hgd := get_vwap_nan data (fun b hb => le_of_eq (hzero b hb).symm) i hi hcum
      rw [List.getD_eq_getElem _ _ h1] at hgd
      rw [hgd, List.getElem_replicate]

/-- C3 fails as stated: with a (negative-volume) bar the cumulative volume is
zero at index 1 while the VWAP value there is negative infinity, not NaN. -/
theorem claim_C3_counterexample :
    (cumsum (([⟨1, 1, 1, 1⟩, ⟨5, 5, 5, -1⟩] : List Bar).map (fun b => b.volume))).getD 1 0 = 0 ∧
    (get_vwap [⟨1, 1, 1, 1⟩, ⟨5, 5, 5, -1⟩]).getD 1 (.val 0) = .ninf := by
  constructor <;>
    norm_num [get_vwap, cumsum, cumsumFrom, pyDiv, List.getD_cons_zero, List.getD_cons_succ]

theorem claim_C3_witness :
    (∀ b ∈ ([⟨1, 2, 3, 0⟩] : List Bar), 0 ≤ b.volume) ∧
    (get_vwap [⟨1, 2, 3, 0⟩]).getD 0 (.val 0) = .nan ∧
    get_vwap [⟨1, 2, 3, 0⟩] = List.replicate 1 .nan := by
  refine ⟨by decide,
    claim_C3_amended.1 [⟨1, 2, 3, 0⟩] (by decide) 0 (by decide)
      (by norm_num [cumsum, cumsumFrom, List.getD_cons_zero]), ?_⟩
  have h := claim_C3_amended.2 [⟨1, 2, 3, 0⟩] (by decide)
  simpa using h

/-- C4: the VwapSeries is aligned index-for-index with the input, and at
every index whose cumulative volume is nonzero it equals the ratio of the
cumulative volume-weighted typical price to the cumulative volume. -/
theorem claim_C4 (data : List Bar) (i : ℕ) (hi : i < data.length)
    (hnz : ((data.take (i + 1)).map (fun b => b.volume)).sum ≠ 0) :
    (get_vwap data).length = data.length ∧
    (get_vwap data).getD i (.val 0) =
      .val ((((data.take (i + 1)).map
          (fun b => ((b.high + b.low + b.close) / 3) * b.volume)).sum) /
        (((data.take (i + 1)).map (fun b => b.volume)).sum)) := by
  refine ⟨get_vwap_length data, ?_⟩
  rw [get_vwap_getD data i hi]
  simp only [pyDiv]
  rw [if_neg hnz]
  have hcomm : (data.take (i + 1)).map (fun b => b.volume * ((b.high + b.low + b.close) / 3)) =
      (data.take (i + 1)).map (fun b => ((b.high + b.low + b.close) / 3) * b.volume) :=
    List.map_congr_left fun b _ => mul_comm _ _
  rw [hcomm]

theorem claim_C4_witness :
    ((([⟨3, 1, 2, 2⟩] : List Bar).take 1).map (fun b => b.volume)).sum ≠ 0 ∧
    (get_vwap [⟨3, 1, 2, 2⟩]).getD 0 (.val 0) = .val 2 := by
  have hnz : ((([⟨3, 1, 2, 2⟩] : List Bar).take 1).map (fun b => b.volume)).sum ≠ 0 := by
    norm_num
  refine ⟨hnz, ?_⟩
  rw [(claim_C4 [⟨3, 1, 2, 2⟩] 0 (by decide) hnz).2]
  norm_num

/-! ## The refresh cycle and the alert gate -/

/-- Per-instrument outcome recorded in a cycle report. -/
inductive InstrumentEntry
  | dataUnavailable
  | entry (lastPrice : ℚ) (alert : String) (vwap : List FloatVal)
  deriving DecidableEq, Repr

/-- The per-instrument computation of `render_dashboard`: an empty fetch is
reported as unavailable (the source shows an error and returns), otherwise
the MACD/signal pair, the crossover alert, the VWAP series and the last
close price are produced. -/
def render_dashboard (data : List Bar) : InstrumentEntry :=
  match data with
  | [] => .dataUnavailable
  | b :: rest =>
    let closes := (b :: rest).map Bar.close
    let ms := get_macd closes
    let alert := check_cross (ms.1.map PyVal.num) (ms.2.map PyVal.num)
    .entry ((b :: rest).getLast (List.cons_ne_nil b rest)).close alert
      (get_vwap (b :: rest))

/-- Modelled from the spec: the multi-instrument `runCycle` orchestration of
the RefreshOrchestrator is absent from this single-ticker script; per the
spec it evaluates each instrument independently with the per-instrument
cycle body embedded above and aggregates the entries into a CycleReport. -/
def runCycle (instruments : List String) (fetch : String → List Bar) :
    List (String × InstrumentEntry) :=
  instruments.map fun t => (t, render_dashboard (fetch t))

/-- C5: the cycle is total and per-instrument: it yields one entry per
instrument, each a function of that instrument's own fetched data alone; an
empty fetch is marked unavailable while a nonempty fetch is populated
normally. -/
theorem claim_C5 (instruments : List String) (fetch : String → List Bar)
    (i : ℕ) (hi : i < instruments.length) :
    (runCycle instruments fetch).length = instruments.length ∧
    (runCycle instruments fetch).getD i ("", .dataUnavailable) =
      (instruments.getD i "", render_dashboard (fetch (instruments.getD i ""))) ∧
    (fetch (instruments.getD i "") = [] →
      (runCycle instruments fetch).getD i ("", .dataUnavailable) =
        (instruments.getD i "", .dataUnavailable)) ∧
    (fetch (instruments.getD i "") ≠ [] →
      (runCycle instruments fetch).getD i ("", .dataUnavailable) ≠
        (instruments.getD i "", .dataUnavailable)) := by
  have hlen : (runCycle instruments fetch).length = instruments.length := by
    simp [runCycle]
  have hi' : i < (runCycle instruments fetch).length := by rw [hlen]; exact hi
  have hget : (runCycle instruments fetch).getD i ("", .dataUnavailable) =
      (instruments.getD i "", render_dashboard (fetch (instruments.getD i ""))) := by
    rw [List.getD_eq_getElem _ _ hi', List.getD_eq_getElem _ _ hi]
    simp [runCycle]
  refine ⟨hlen, hget, ?_, ?_⟩
  · intro hempty
    rw [hget, hempty]
    rfl
  · intro hne
    rw [hget]
    cases hdata : fetch (instruments.getD i "") with
    | nil => exact absurd hdata hne
    | cons b rest =>
      intro hcontra
      have := (Prod.mk.injEq _ _ _ _).mp hcontra
      simp [render_dashboard] at this

/-- A concrete two-instrument fetch for exercising the cycle: "A" fails
(empty series), "B" succeeds. -/
def demoFetch : String → List Bar :=
  fun t => if t = "B" then [⟨3, 1, 2, 2⟩] else []

theorem claim_C5_witness :
    (0 : ℕ) < 2 ∧ (1 : ℕ) < 2 ∧
    (runCycle ["A", "B"] demoFetch).getD 0 ("", .dataUnavailable) =
      ("A", .dataUnavailable) ∧
    (runCycle ["A", "B"] demoFetch).getD 1 ("", .dataUnavailable) ≠
      ("B", .dataUnavailable) := by
  refine ⟨by decide, by decide, ?_, ?_⟩
  · have h := (claim_C5 ["A", "B"] demoFetch 0 (by decide)).2.2.1 (by decide)
    simpa using h
  · have h := (claim_C5 ["A", "B"] demoFetch 1 (by decide)).2.2.2 (by decide)
    simpa using h

/-- A notification intent as the spec's AlertGate constructs it. -/
structure AlertIntent where
  instrument : String
  alert : String
  lastPrice : ℚ
  deriving DecidableEq, Repr

/-- Python's substring test over char lists. -/
def listContains (needle : List Char) : List Char → Bool
  | [] => needle.isEmpty
  | c :: rest => needle.isPrefixOf (c :: rest) || listContains needle rest

/-- Python's `needle in hay` on strings. -/
def strContains (hay needle : String) : Bool :=
  listContains needle.toList hay.toList

/-- The alert gate of `render_dashboard` (enabled checkbox, `"BUY" in alert
or "SELL" in alert`), lifted per the spec's `AlertGate.evaluate` to a whole
cycle report: one intent per qualifying populated entry. -/
def AlertGate.evaluate (enabled : Bool) (report : List (String × InstrumentEntry)) :
    List AlertIntent :=
  report.filterMap fun e =>
    match e.2 with
    | .dataUnavailable => none
    | .entry price alert _ =>
      if enabled && (strContains alert "BUY" || strContains alert "SELL") then
        some ⟨e.1, alert, price⟩
      else none

/-- C9: with alerts disabled the gate emits no intent, whatever the cycle
report contains. -/
theorem claim_C9 (report : List (String × InstrumentEntry)) :
    AlertGate.evaluate false report = [] := by
  unfold AlertGate.evaluate
  apply List.filterMap_eq_nil_iff.mpr
  intro e _
  cases h : e.2 <;> simp [h]
